import Mathlib

/-!
Shallow embedding of the Text-to-audio repository's core
(`src/text_processor.py`, `src/synthesizer.py`, `src/auth.py`)
and proofs about its specified properties.

Strings are modelled as `List Char`; Python re-based operations are
embedded as recursive functions with the exact matching semantics of the
regular expressions used by the source (leftmost, greedy with backtracking).
-/

set_option autoImplicit false

namespace TextToAudio

/-- Strings are modelled as lists of characters. -/
abbrev Str := List Char

/-- Python's `\s` / `str.strip()` whitespace class:
space, tab, newline, carriage return, vertical tab, form feed. -/
def isPySpace (c : Char) : Bool :=
  c = ' ' || c = '\t' || c = '\n' || c = '\r' || c = '\x0b' || c = '\x0c'

/-- Python `str.lstrip()`. -/
def lstrip (s : Str) : Str := s.dropWhile isPySpace

/-- Python `str.rstrip()`. -/
def rstrip (s : Str) : Str := (s.reverse.dropWhile isPySpace).reverse

/-- Python `str.strip()`. -/
def pstrip (s : Str) : Str := rstrip (lstrip s)

theorem length_dropWhile_le (p : Char → Bool) (l : Str) :
    (l.dropWhile p).length ≤ l.length := by
  induction l with
  | nil => simp [List.dropWhile]
  | cons c cs ih =>
    simp only [List.dropWhile]
    cases p c <;> simp
    exact Nat.le_succ_of_le ih

/-! ### `TextSplitter._preprocess_text` (text_processor.py, lines 105-129) -/

/-- `re.sub(r'\r\n', '\n', text)` followed by `re.sub(r'\r', '\n', text)`:
every CRLF pair and every lone CR becomes LF. -/
def normNewlines : Str → Str
  | [] => []
  | '\r' :: '\n' :: rest => '\n' :: normNewlines rest
  | '\r' :: rest => '\n' :: normNewlines rest
  | c :: rest => c :: normNewlines rest

/-- Is the character a space or a tab (the class `[ \t]`)? -/
def isHoriz (c : Char) : Bool := c = ' ' || c = '\t'

/-- `re.sub(r'[ \t]+', ' ', text)`: each maximal run of spaces/tabs becomes
a single space. -/
def collapseHoriz : Str → Str
  | [] => []
  | c :: rest =>
    if isHoriz c then ' ' :: collapseHoriz (rest.dropWhile isHoriz)
    else c :: collapseHoriz rest
termination_by s => s.length
decreasing_by
  · exact Nat.lt_succ_of_le (length_dropWhile_le _ _)
  · simp

/-- `re.sub(r'\n{3,}', '\n\n', text)`: each maximal run of three or more
newlines becomes exactly two newlines. -/
def collapseNl : Str → Str
  | '\n' :: '\n' :: '\n' :: rest =>
      '\n' :: '\n' :: collapseNl (rest.dropWhile (fun c => c = '\n'))
  | c :: rest => c :: collapseNl rest
  | [] => []
termination_by s => s.length
decreasing_by
  · exact Nat.lt_succ_of_le (Nat.le_succ_of_le (Nat.le_succ_of_le
      (length_dropWhile_le _ _)))
  · simp

/-- Python `text.split('\n')`. -/
def splitOnNl : Str → List Str
  | [] => [[]]
  | '\n' :: rest => [] :: splitOnNl rest
  | c :: rest =>
    match splitOnNl rest with
    | [] => [[c]]
    | h :: t => (c :: h) :: t

/-- `TextSplitter._preprocess_text`: normalize line endings, collapse
horizontal whitespace runs, collapse 3+ newlines to 2, strip each line,
strip the whole text. -/
def preprocess (text : Str) : Str :=
  let t1 := normNewlines text
  let t2 := collapseHoriz t1
  let t3 := collapseNl t2
  let t4 := List.intercalate ['\n'] ((splitOnNl t3).map pstrip)
  pstrip t4

/-! ### Regex split primitives used by `TextSplitter`
(`paragraph_breaks = \n\s*\n`, `sentence_endings = [.!?]+\s+`,
`word_boundaries = \s+`) -/

/-- Prepend a list of characters to the first piece of a split result. -/
def consHead (cs : Str) : List Str → List Str
  | [] => [cs]
  | h :: t => (cs ++ h) :: t

theorem takeWhile_length_lt_of_mem {l : Str} {a : Char} (h : a ∈ l) :
    (l.takeWhile (fun c => c != a)).length < l.length := by
  induction l with
  | nil => cases h
  | cons c cs ih =>
    simp only [List.takeWhile]
    rcases List.mem_cons.1 h with rfl | hmem
    · simp
    · cases hca : (c != a) with
      | false => simp
      | true => simpa using ih hmem

/-- `re.split(r'\n\s*\n', text)`: a separator starts at a newline and,
after greedy matching with backtracking, extends to the last newline of the
maximal whitespace run that follows it (if that run contains a newline). -/
def paragraphSplit : Str → List Str
  | [] => [[]]
  | c :: rest =>
    if c = '\n' then
      let run := rest.takeWhile isPySpace
      let rem := rest.dropWhile isPySpace
      if hn : '\n' ∈ run then
        -- the part of the run after its last newline stays in the next piece
        let after := (run.reverse.takeWhile (fun d => d != '\n')).reverse
        [] :: paragraphSplit (after ++ rem)
      else consHead [c] (paragraphSplit rest)
    else consHead [c] (paragraphSplit rest)
termination_by s => s.length
decreasing_by
  · have h1 : ((rest.takeWhile isPySpace).reverse.takeWhile
        (fun d => d != '\n')).length < (rest.takeWhile isPySpace).length := by
      have := takeWhile_length_lt_of_mem
        (l := (rest.takeWhile isPySpace).reverse) (a := '\n') (by simpa using hn)
      simpa using this
    have h2 : (rest.takeWhile isPySpace).length +
        (rest.dropWhile isPySpace).length = rest.length := by
      rw [← List.length_append, List.takeWhile_append_dropWhile]
    simp only [List.length_append, List.length_reverse, List.length_cons]
    omega
  · simp
  · simp

/-- Is the character a sentence terminator (the class `[.!?]`)? -/
def isTerm (c : Char) : Bool := c = '.' || c = '!' || c = '?'

/-- `re.split(r'[.!?]+\s+', text)` together with
`re.findall(r'[.!?]+\s+', text)`: returns the pieces and the matched
separators. A separator is a maximal run of terminators followed by a
maximal run of whitespace; a terminator run not followed by whitespace is
ordinary text. -/
def sentenceSplit : Str → List Str × List Str
  | [] => ([[]], [])
  | c :: rest =>
    if isTerm c then
      let punct := c :: rest.takeWhile isTerm
      let rem1 := rest.dropWhile isTerm
      let ws := rem1.takeWhile isPySpace
      if ws = [] then
        let (ps, ss) := sentenceSplit rem1
        (consHead punct ps, ss)
      else
        let rem2 := rem1.dropWhile isPySpace
        let (ps, ss) := sentenceSplit rem2
        ([] :: ps, (punct ++ ws) :: ss)
    else
      let (ps, ss) := sentenceSplit rest
      (consHead [c] ps, ss)
termination_by s => s.length
decreasing_by
  · exact Nat.lt_succ_of_le (length_dropWhile_le _ _)
  · exact Nat.lt_succ_of_le (le_trans (length_dropWhile_le _ _)
      (length_dropWhile_le _ _))
  · simp

/-- `re.split(r'\s+', text)`: pieces between maximal whitespace runs
(with empty pieces at the ends when the text starts/ends with whitespace). -/
def wordSplit : Str → List Str
  | [] => [[]]
  | c :: rest =>
    if isPySpace c then [] :: wordSplit (rest.dropWhile isPySpace)
    else consHead [c] (wordSplit rest)
termination_by s => s.length
decreasing_by
  · exact Nat.lt_succ_of_le (length_dropWhile_le _ _)
  · simp

/-! ### `TextChunk` and the three splitting levels
(text_processor.py, lines 18-274) -/

/-- `TextChunk` (text_processor.py, lines 18-41): the constructor strips the
text and derives `length`; `processed`/`audio_file` are the synthesis
bookkeeping fields mutated by `SpeechSynthesizer`. Audio artifact
references (file paths `chunk_{index:04d}.wav`) are modelled by the chunk
index that determines the path. -/
structure TextChunk where
  text : Str
  index : Nat
  length : Nat
  processed : Bool
  audio_file : Option Nat
deriving DecidableEq, Repr

/-- `TextChunk.__init__`: `self.text = text.strip()`,
`self.length = len(self.text)`, `self.processed = False`,
`self.audio_file = None`. -/
def mkTextChunk (text : Str) (index : Nat) : TextChunk :=
  { text := pstrip text
    index := index
    length := (pstrip text).length
    processed := false
    audio_file := none }

/-- The hard cut of an over-long word
(`for i in range(0, len(word), max_size): chunks.append(word[i:i+max_size])`,
text_processor.py lines 264-266). In Python a zero `max_size` would raise
`ValueError` (zero range step); the claims about the splitter assume
`1 ≤ maxSize`, so the `maxSize = 0` branch here is never relevant. -/
def hardCut (maxSize : Nat) (w : Str) : List Str :=
  if maxSize = 0 ∨ w = [] then []
  else w.take maxSize :: hardCut maxSize (w.drop maxSize)
termination_by w.length
decreasing_by
  rename_i h
  push_neg at h
  obtain ⟨h0, hw⟩ := h
  simp only [List.length_drop]
  have : 0 < w.length := List.length_pos.2 hw
  omega

/-- The packing loop of `TextSplitter._split_by_words`
(text_processor.py, lines 247-272), recursion on the remaining words with
the accumulated `chunks` and `current_chunk` as state. -/
def wordsLoop (maxSize : Nat) : List Str → List Str → Str → List Str
  | [], chunks, current =>
      if current = [] then chunks else chunks ++ [current]
  | w :: ws, chunks, current =>
      if pstrip w = [] then wordsLoop maxSize ws chunks current
      else
        let potential := current ++ (if current = [] then [] else [' ']) ++ w
        if potential.length ≤ maxSize then wordsLoop maxSize ws chunks potential
        else
          let chunks1 := if current = [] then chunks else chunks ++ [current]
          if maxSize < w.length then
            wordsLoop maxSize ws (chunks1 ++ hardCut maxSize w) []
          else wordsLoop maxSize ws chunks1 w

/-- `TextSplitter._split_by_words` (text_processor.py, lines 234-274). -/
def split_by_words (maxSize : Nat) (text : Str) : List Str :=
  wordsLoop maxSize (wordSplit text) [] []

/-- The sentence reconstruction of `TextSplitter._split_by_sentences`
(text_processor.py, lines 193-202): every non-blank piece except the last
gets its (right-stripped) terminator run re-attached; a blank piece is
skipped and its terminator run is dropped; the last piece is kept as-is
when non-blank. -/
def buildParts : List Str → List Str → List Str
  | [], _ => []
  | [s], _ => if pstrip s = [] then [] else [s]
  | s :: ss, e :: es =>
      (if pstrip s = [] then [] else [s ++ rstrip e]) ++ buildParts ss es
  | _ :: _ :: _, [] => []

/-- The packing loop of `TextSplitter._split_by_sentences`
(text_processor.py, lines 204-230): each sentence is stripped; an
over-long sentence is delegated to `_split_by_words`, all of whose result
but the last chunk is committed and whose last chunk becomes the new
`current_chunk`. -/
def sentLoop (maxSize : Nat) : List Str → List Str → Str → List Str
  | [], chunks, current =>
      if current = [] then chunks else chunks ++ [current]
  | part :: ps, chunks, current =>
      let sentence := pstrip part
      if sentence = [] then sentLoop maxSize ps chunks current
      else
        let potential := current ++ (if current = [] then [] else [' ']) ++ sentence
        if potential.length ≤ maxSize then sentLoop maxSize ps chunks potential
        else
          let chunks1 := if current = [] then chunks else chunks ++ [current]
          if maxSize < sentence.length then
            let wcs := split_by_words maxSize sentence
            sentLoop maxSize ps (chunks1 ++ wcs.dropLast) (wcs.getLastD [])
          else sentLoop maxSize ps chunks1 sentence

/-- `TextSplitter._split_by_sentences` (text_processor.py, lines 177-232). -/
def split_by_sentences (maxSize : Nat) (text : Str) : List Str :=
  let sp := sentenceSplit text
  sentLoop maxSize (buildParts sp.1 sp.2) [] []

/-- The packing loop of `TextSplitter._split_into_chunks`
(text_processor.py, lines 146-175): paragraphs are stripped and packed,
joined by a blank line; an over-long paragraph is delegated to
`_split_by_sentences`. -/
def paraLoop (maxSize : Nat) : List Str → List Str → Str → List Str
  | [], chunks, current =>
      if current = [] then chunks else chunks ++ [current]
  | p :: ps, chunks, current =>
      let paragraph := pstrip p
      if paragraph = [] then paraLoop maxSize ps chunks current
      else
        let potential := current ++ (if current = [] then [] else ['\n', '\n']) ++ paragraph
        if potential.length ≤ maxSize then paraLoop maxSize ps chunks potential
        else
          let chunks1 := if current = [] then chunks else chunks ++ [current]
          if maxSize < paragraph.length then
            let scs := split_by_sentences maxSize paragraph
            paraLoop maxSize ps (chunks1 ++ scs.dropLast) (scs.getLastD [])
          else paraLoop maxSize ps chunks1 paragraph

/-- `TextSplitter._split_into_chunks` (text_processor.py, lines 131-175). -/
def split_into_chunks (maxSize : Nat) (text : Str) : List Str :=
  paraLoop maxSize (paragraphSplit text) [] []

/-- `TextSplitter.split_text` (text_processor.py, lines 61-103): raise on
blank input; preprocess; single chunk when the processed text fits;
otherwise split and build `TextChunk`s, skipping blank fragments and
numbering by the enumeration index of the raw fragment list. -/
def split_text (maxSize : Nat) (text : Str) : Except String (List TextChunk) :=
  if pstrip text = [] then .error "empty input text"
  else
    let processed := preprocess text
    if processed.length ≤ maxSize then .ok [mkTextChunk processed 0]
    else
      let chunks := split_into_chunks maxSize processed
      .ok (chunks.enum.filterMap fun p =>
        if pstrip p.2 = [] then none else some (mkTextChunk p.2 p.1))

/-! ### `clean_text_for_synthesis` (text_processor.py, lines 464-485) -/

/-- `re.sub(r'\s+', ' ', text)`: each maximal whitespace run becomes one
space. -/
def collapseWsRuns : Str → Str
  | [] => []
  | c :: rest =>
    if isPySpace c then ' ' :: collapseWsRuns (rest.dropWhile isPySpace)
    else c :: collapseWsRuns rest
termination_by s => s.length
decreasing_by
  · exact Nat.lt_succ_of_le (length_dropWhile_le _ _)
  · simp

/-- `re.sub(r'\.{2,}', '...', text)`: each maximal run of two or more dots
becomes exactly three dots. -/
def collapseDots : Str → Str
  | '.' :: '.' :: rest =>
      '.' :: '.' :: '.' :: collapseDots (rest.dropWhile (fun c => c = '.'))
  | c :: rest => c :: collapseDots rest
  | [] => []
termination_by s => s.length
decreasing_by
  · exact Nat.lt_succ_of_le (Nat.le_succ_of_le (length_dropWhile_le _ _))
  · simp

/-- `re.sub(r'[!]{2,}', '!', text)`: each maximal run of two or more
exclamation marks becomes one. -/
def collapseBangs : Str → Str
  | '!' :: '!' :: rest =>
      '!' :: collapseBangs (rest.dropWhile (fun c => c = '!'))
  | c :: rest => c :: collapseBangs rest
  | [] => []
termination_by s => s.length
decreasing_by
  · exact Nat.lt_succ_of_le (Nat.le_succ_of_le (length_dropWhile_le _ _))
  · simp

/-- `re.sub(r'[?]{2,}', '?', text)`. -/
def collapseQuestions : Str → Str
  | '?' :: '?' :: rest =>
      '?' :: collapseQuestions (rest.dropWhile (fun c => c = '?'))
  | c :: rest => c :: collapseQuestions rest
  | [] => []
termination_by s => s.length
decreasing_by
  · exact Nat.lt_succ_of_le (Nat.le_succ_of_le (length_dropWhile_le _ _))
  · simp

/-- The character allowlist `[\w\s\.,!?;:()\-—–""«»\']` of
`clean_text_for_synthesis`; `\w` (unicode word characters) is modelled by
`Char.isAlphanum` plus underscore, which is exact on the ASCII texts the
properties are exercised with. -/
def isAllowed (c : Char) : Bool :=
  c.isAlphanum || c = '_' || isPySpace c ||
  c = '.' || c = ',' || c = '!' || c = '?' || c = ';' || c = ':' ||
  c = '(' || c = ')' || c = '-' || c = '—' || c = '–' || c = '"' ||
  c = '«' || c = '»' || c = '\''

/-- `clean_text_for_synthesis` (text_processor.py, lines 464-485):
collapse whitespace, normalize repeated punctuation, strip disallowed
characters, strip the ends. -/
def clean_text_for_synthesis (text : Str) : Str :=
  let t1 := collapseWsRuns text
  let t2 := collapseDots t1
  let t3 := collapseBangs t2
  let t4 := collapseQuestions t3
  let t5 := t4.filter isAllowed
  pstrip t5

/-! ### `RateLimiter` (synthesizer.py, lines 32-55)

Time is modelled by exact rationals; `time.sleep` is modelled as advancing
the clock by exactly the requested amount, and the `time.time()` call after
the sleep reads that advanced clock. -/

/-- `RateLimiter` state: `min_interval = 1.0 / requests_per_second` and the
`last_request_time` pacing clock. -/
structure RateLimiter where
  min_interval : ℚ
  last_request_time : ℚ
deriving DecidableEq, Repr

/-- `RateLimiter.__init__` with `last_request_time = 0.0`. -/
def mkRateLimiter (requests_per_second : ℚ) : RateLimiter :=
  { min_interval := 1 / requests_per_second, last_request_time := 0 }

/-- `RateLimiter.wait_if_needed` (synthesizer.py, lines 46-55) at current
clock `now`: sleep the remaining part of `min_interval` when the elapsed
time since the last grant is smaller, then record the grant time. Returns
the updated limiter; the recorded `last_request_time` is the grant time. -/
def wait_if_needed (now : ℚ) (rl : RateLimiter) : RateLimiter :=
  let time_since_last := now - rl.last_request_time
  if time_since_last < rl.min_interval then
    { rl with last_request_time := now + (rl.min_interval - time_since_last) }
  else
    { rl with last_request_time := now }

/-- The grant times produced by a sequence of `wait_if_needed` calls made
at the given clock readings. -/
def grantsOf (rl : RateLimiter) : List ℚ → List ℚ
  | [] => []
  | t :: ts =>
      let rl' := wait_if_needed t rl
      rl'.last_request_time :: grantsOf rl' ts

/-! ### `TokenManager` (auth.py, lines 23-255)

Timestamps (`datetime`) are modelled by rationals counting seconds; the
10-minute refresh buffer is 600 seconds and the 12-hour default lifetime is
43200 seconds. The remote exchange (`_create_jwt_token` followed by
`_exchange_jwt_for_iam` and the extraction of `iamToken`) is modelled by an
oracle giving either the failure or the parsed response of this call; all
of its failure modes (network error, non-2xx status, malformed JSON,
missing `iamToken` key) raise before any cached field is assigned. -/

/-- The cached-token state of `TokenManager`. -/
structure TokenState where
  iam_token : Option String
  token_expires_at : Option ℚ
deriving DecidableEq, Repr

/-- Errors surfaced by `get_iam_token`: every exchange failure is wrapped
into a `YandexAuthError`. -/
inductive AuthError where
  | exchangeFailed : String → AuthError
deriving DecidableEq, Repr

/-- A successful identity-endpoint response: the token value and the
`expiresAt` field (`none` = field absent, `some none` = present but
unparseable — both fall back to the 12-hour default, `some (some t)` =
parsed expiry `t`). -/
structure ExchangeResp where
  iamToken : String
  expiresAt : Option (Option ℚ)
deriving DecidableEq, Repr

/-- The 10-minute buffer of `_is_token_expired` (auth.py, line 175), in
seconds. -/
def buffer_time : ℚ := 600

/-- The 12-hour default token lifetime (auth.py, lines 220 and 223), in
seconds. -/
def default_lifetime : ℚ := 43200

/-- `TokenManager._is_token_expired` (auth.py, lines 164-176):
`True` when no expiry is recorded or `now + buffer >= expires_at`. -/
def is_token_expired (now : ℚ) (ts : TokenState) : Bool :=
  match ts.token_expires_at with
  | none => true
  | some exp => decide (exp ≤ now + buffer_time)

/-- Python truthiness of the cached `self.iam_token` (an absent or empty
token is falsy). -/
def tokenTruthy : Option String → Bool
  | none => false
  | some t => t != ""

/-- `TokenManager.get_iam_token` (auth.py, lines 178-233) at clock `now`,
with `exchange` the oracle outcome of the token exchange this call would
perform. Returns the result, the new state, and the number of exchanges
performed (0 or 1). -/
def get_iam_token (now : ℚ) (exchange : Except String ExchangeResp)
    (force_refresh : Bool) (ts : TokenState) :
    Except AuthError String × TokenState × Nat :=
  if !force_refresh && tokenTruthy ts.iam_token && !is_token_expired now ts then
    (.ok (ts.iam_token.getD ""), ts, 0)
  else
    match exchange with
    | .error e => (.error (.exchangeFailed e), ts, 1)
    | .ok resp =>
        let exp : ℚ :=
          match resp.expiresAt with
          | some (some t) => t
          | some none => now + default_lifetime
          | none => now + default_lifetime
        (.ok resp.iamToken,
         { iam_token := some resp.iamToken, token_expires_at := some exp }, 1)

/-! ### `SpeechSynthesizer` (synthesizer.py, lines 58-321)

The opaque SDK call `model.synthesize` / `result.export` is modelled by an
oracle `synth : Nat → Nat → Bool` telling whether the synthesis of the
chunk with a given index succeeds at a given attempt (0-based); every
failure mode of an attempt (network error, provider error, export failure,
missing output file) is a `false` outcome. A successful attempt produces
the artifact `chunk.index` (standing for the path `chunk_{index:04d}.wav`).
Sleeps and token refreshes between retries do not affect the modelled
observables. -/

/-- Effect log of a synthesis run: how many rate-limiter slots were
acquired and which `(chunk index, attempt)` synthesis calls were issued. -/
structure EffState where
  grants : Nat
  calls : List (Nat × Nat)
deriving DecidableEq, Repr

/-- Errors raised by the synthesizer (`SynthesizerError`). -/
inductive SynthError where
  /-- `"Пустой текст после очистки"`: blank after cleanup, raised before
  any attempt. -/
  | emptyAfterCleanup : Nat → SynthError
  /-- `"Не удалось синтезировать фрагмент ... после N попыток"`: permanent
  per-chunk failure carrying the last failing attempt (0-based). -/
  | failedAfterRetries : Nat → Nat → SynthError
  /-- `"Пустой список фрагментов для синтеза"`. -/
  | emptyChunkList : SynthError
  /-- `"Не удалось синтезировать ни одного фрагмента"`. -/
  | allChunksFailed : SynthError
deriving DecidableEq, Repr

/-- The retry loop of `SpeechSynthesizer.synthesize_chunk`
(synthesizer.py, lines 163-223): `remaining` attempts are left and the
current 0-based attempt number is `attempt`. Each iteration acquires a
rate-limiter slot and issues one synthesis call; on failure it retries
while `attempt < max_retries - 1` and otherwise raises with the last
error. Falling off the loop (only possible when `max_retries = 0`) returns
Python's implicit `None`. -/
def synthLoop (synth : Nat → Nat → Bool) (max_retries idx : Nat) :
    Nat → Nat → EffState → Except SynthError (Option Nat) × EffState
  | 0, _, st => (.ok none, st)
  | remaining + 1, attempt, st =>
      let st1 : EffState :=
        { grants := st.grants + 1, calls := st.calls ++ [(idx, attempt)] }
      if synth idx attempt then (.ok (some idx), st1)
      else if attempt < max_retries - 1 then
        synthLoop synth max_retries idx remaining (attempt + 1) st1
      else (.error (.failedAfterRetries idx attempt), st1)

/-- `SpeechSynthesizer.synthesize_chunk` (synthesizer.py, lines 126-223):
an already-processed chunk returns its recorded audio reference at once;
otherwise the text is cleaned (blank after cleanup raises), and the retry
loop runs. On success the chunk is marked processed with its artifact
recorded. Returns (result, updated chunk, effect log). -/
def synthesize_chunk (synth : Nat → Nat → Bool) (max_retries : Nat)
    (chunk : TextChunk) (st : EffState) :
    Except SynthError (Option Nat) × TextChunk × EffState :=
  if chunk.processed then (.ok chunk.audio_file, chunk, st)
  else
    let clean := clean_text_for_synthesis chunk.text
    if pstrip clean = [] then (.error (.emptyAfterCleanup chunk.index), chunk, st)
    else
      match synthLoop synth max_retries chunk.index max_retries 0 st with
      | (.ok (some a), st') =>
          (.ok (some a), { chunk with processed := true, audio_file := some a }, st')
      | (r, st') => (r, chunk, st')

/-- The per-chunk loop of `SpeechSynthesizer.synthesize_chunks`
(synthesizer.py, lines 272-294): each chunk is synthesized in order; a
failure appends `None` to keep the position and processing continues.
Returns (ordered result slots, updated chunks, effect log, number of
successful chunks). -/
def synthChunksGo (synth : Nat → Nat → Bool) (max_retries : Nat) :
    List TextChunk → EffState →
    List (Option Nat) × List TextChunk × EffState × Nat
  | [], st => ([], [], st, 0)
  | c :: cs, st =>
      let r := synthesize_chunk synth max_retries c st
      let entry : Option Nat := match r.1 with | .ok v => v | .error _ => none
      let succ : Nat := match r.1 with | .ok _ => 1 | .error _ => 0
      let rest := synthChunksGo synth max_retries cs r.2.2
      (entry :: rest.1, r.2.1 :: rest.2.1, rest.2.2.1, succ + rest.2.2.2)

/-- `SpeechSynthesizer.synthesize_chunks` (synthesizer.py, lines 243-321):
raise on an empty chunk list; run every chunk, keeping order with `None`
slots for failures; then filter out the `None` slots and raise when none
succeeded, otherwise return the filtered list. -/
def synthesize_chunks (synth : Nat → Nat → Bool) (max_retries : Nat)
    (chunks : List TextChunk) (st : EffState) :
    Except SynthError (List Nat) × List TextChunk × EffState :=
  if chunks = [] then (.error .emptyChunkList, chunks, st)
  else
    let run := synthChunksGo synth max_retries chunks st
    let valid := run.1.filterMap id
    if valid = [] then (.error .allChunksFailed, run.2.1, run.2.2.1)
    else (.ok valid, run.2.1, run.2.2.1)

/-- The non-whitespace content of a string (the reference point of the
chunking-coverage property). -/
def nonWsContent (s : Str) : Str := s.filter (fun c => !(isPySpace c))

/-! ## Theorems -/

/-! ### Basic facts about Python `strip` -/

theorem lstrip_length_le (s : Str) : (lstrip s).length ≤ s.length :=
  length_dropWhile_le _ _

theorem rstrip_length_le (s : Str) : (rstrip s).length ≤ s.length := by
  unfold rstrip
  calc (s.reverse.dropWhile isPySpace).reverse.length
      = (s.reverse.dropWhile isPySpace).length := by simp
    _ ≤ s.reverse.length := length_dropWhile_le _ _
    _ = s.length := by simp

theorem pstrip_length_le (s : Str) : (pstrip s).length ≤ s.length :=
  le_trans (rstrip_length_le _) (lstrip_length_le _)

theorem dropWhile_eq_nil_iff' (p : Char → Bool) (l : Str) :
    l.dropWhile p = [] ↔ ∀ c ∈ l, p c = true := by
  induction l with
  | nil => simp [List.dropWhile]
  | cons c cs ih =>
    simp only [List.dropWhile]
    cases h : p c with
    | false => simp [h]
    | true => simp [h, ih]

theorem rstrip_eq_nil_iff (s : Str) :
    rstrip s = [] ↔ ∀ c ∈ s, isPySpace c = true := by
  unfold rstrip
  rw [List.reverse_eq_nil_iff, dropWhile_eq_nil_iff']
  constructor
  · intro h c hc; exact h c (by simpa using hc)
  · intro h c hc; exact h c (by simpa using hc)

theorem mem_lstrip {s : Str} {c : Char} (h : c ∈ lstrip s) : c ∈ s := by
  unfold lstrip at h
  exact List.dropWhile_subset _ h

theorem pstrip_eq_nil_iff (s : Str) :
    pstrip s = [] ↔ ∀ c ∈ s, isPySpace c = true := by
  unfold pstrip
  rw [rstrip_eq_nil_iff]
  constructor
  · intro h c hc
    rw [← List.takeWhile_append_dropWhile (p := isPySpace) (l := s)] at hc
    rcases List.mem_append.1 hc with h1 | h2
    · exact List.mem_takeWhile_imp h1
    · exact h c h2
  · intro h c hc
    exact h c (mem_lstrip hc)

theorem pstrip_ne_nil_of_mem {s : Str} {c : Char} (hc : c ∈ s)
    (hcs : isPySpace c = false) : pstrip s ≠ [] := by
  intro h
  rw [pstrip_eq_nil_iff] at h
  rw [h c hc] at hcs
  cases hcs

theorem exists_nonspace_of_pstrip_ne_nil {s : Str} (h : pstrip s ≠ []) :
    ∃ c ∈ s, isPySpace c = false := by
  by_contra hall
  push_neg at hall
  exact h (pstrip_eq_nil_iff s |>.2 fun c hc => by
    have := hall c hc
    simpa using this)

/-! ### C6 — rate limiter pacing -/

theorem wait_if_needed_min_interval (now : ℚ) (rl : RateLimiter) :
    (wait_if_needed now rl).min_interval = rl.min_interval := by
  by_cases h : now - rl.last_request_time < rl.min_interval <;>
    simp [wait_if_needed, h]

theorem wait_if_needed_gap (now : ℚ) (rl : RateLimiter) :
    rl.min_interval ≤
      (wait_if_needed now rl).last_request_time - rl.last_request_time := by
  by_cases h : now - rl.last_request_time < rl.min_interval
  · simp only [wait_if_needed, if_pos h]
    linarith
  · simp only [wait_if_needed, if_neg h]
    linarith [not_lt.1 h]

theorem grantsOf_chain (ts : List ℚ) : ∀ rl : RateLimiter,
    List.Chain' (fun a b => rl.min_interval ≤ b - a) (grantsOf rl ts) := by
  induction ts with
  | nil => intro rl; simp [grantsOf]
  | cons t ts ih =>
    intro rl
    unfold grantsOf
    rw [List.chain'_cons']
    constructor
    · intro b hb
      cases ts with
      | nil => simp [grantsOf] at hb
      | cons t2 ts2 =>
        simp only [grantsOf, List.head?_cons, Option.mem_def, Option.some.injEq] at hb
        subst hb
        have := wait_if_needed_gap t2 (wait_if_needed t rl)
        rwa [wait_if_needed_min_interval] at this
    · have := ih (wait_if_needed t rl)
      rwa [wait_if_needed_min_interval] at this

/-- C6: for every sequence of calls to the rate limiter, no two consecutive
granted slots are less than `minInterval = 1 / requests_per_second` apart,
measured between the recorded grant times (under the exact-clock model of
`wait_if_needed`). -/
theorem C6_grant_spacing (requests_per_second : ℚ) (calls : List ℚ) :
    List.Chain' (fun a b => 1 / requests_per_second ≤ b - a)
      (grantsOf (mkRateLimiter requests_per_second) calls) := by
  have h := grantsOf_chain calls (mkRateLimiter requests_per_second)
  simpa [mkRateLimiter] using h

/-! ### C7, C8 — token manager -/

/-- C7: while a cached (non-empty) token is within its validity window
minus the 10-minute safety margin, `get_iam_token` (without force refresh)
returns the cached value, performs no exchange and leaves the state
untouched — so two such calls return the same token with zero exchanges;
a call at or past `expiry - margin` performs exactly one exchange. -/
theorem C7_token_reuse (ts : TokenState) (v : String) (exp now1 now2 now3 : ℚ)
    (ex1 ex2 ex3 : Except String ExchangeResp)
    (hv : ts.iam_token = some v) (hvne : v ≠ "")
    (he : ts.token_expires_at = some exp) :
    ((now1 + buffer_time < exp → now2 + buffer_time < exp →
      get_iam_token now1 ex1 false ts = (.ok v, ts, 0) ∧
      get_iam_token now2 ex2 false
        (get_iam_token now1 ex1 false ts).2.1 = (.ok v, ts, 0)) ∧
     (exp ≤ now3 + buffer_time → (get_iam_token now3 ex3 false ts).2.2 = 1)) := by
  have hfresh : ∀ now (ex : Except String ExchangeResp), now + buffer_time < exp →
      get_iam_token now ex false ts = (.ok v, ts, 0) := by
    intro now ex hnow
    unfold get_iam_token
    have hexp : is_token_expired now ts = false := by
      unfold is_token_expired
      rw [he]
      simp [not_le.2 hnow]
    rw [hv]
    simp [hexp, tokenTruthy, bne_iff_ne, hvne, hv]
  refine ⟨fun h1 h2 => ?_, fun h3 => ?_⟩
  · refine ⟨hfresh now1 ex1 h1, ?_⟩
    rw [hfresh now1 ex1 h1]
    exact hfresh now2 ex2 h2
  · unfold get_iam_token
    have hexp : is_token_expired now3 ts = true := by
      unfold is_token_expired
      rw [he]
      simp [h3]
    rw [hexp]
    simp only [Bool.and_false, Bool.not_true, Bool.false_eq_true, if_false]
    cases ex3 <;> rfl

theorem C7_token_reuse_witness :
    (get_iam_token 0 (.error "down") false ⟨some "tok", some 10000⟩ =
       (.ok "tok", ⟨some "tok", some 10000⟩, 0) ∧
     get_iam_token 1 (.error "down") false
       (get_iam_token 0 (.error "down") false ⟨some "tok", some 10000⟩).2.1 =
       (.ok "tok", ⟨some "tok", some 10000⟩, 0)) ∧
    (get_iam_token 99999 (.error "down") false ⟨some "tok", some 10000⟩).2.2 = 1 := by
  have h := C7_token_reuse ⟨some "tok", some 10000⟩ "tok" 10000 0 1 99999
    (.error "down") (.error "down") (.error "down") rfl (by decide) rfl
  exact ⟨h.1 (by norm_num [buffer_time]) (by norm_num [buffer_time]),
         h.2 (by norm_num [buffer_time])⟩

/-- C8: when the token exchange this call would perform fails, the cached
token and its recorded expiry are left exactly as they were, and — whenever
the call actually reaches the exchange (no usable cached token, or forced) —
the call surfaces the failure as an auth error. -/
theorem C8_failed_exchange_state (now : ℚ) (force : Bool)
    (ts : TokenState) (e : String) :
    (get_iam_token now (.error e) force ts).2.1 = ts ∧
    ((!force && tokenTruthy ts.iam_token && !is_token_expired now ts) = false →
      (get_iam_token now (.error e) force ts).1 = .error (.exchangeFailed e)) := by
  unfold get_iam_token
  cases h : (!force && tokenTruthy ts.iam_token && !is_token_expired now ts) with
  | true => simp [h]
  | false => simp [h]

theorem C8_failed_exchange_state_witness :
    (get_iam_token 0 (.error "boom") false ⟨none, none⟩).2.1 = (⟨none, none⟩ : TokenState) ∧
    (get_iam_token 0 (.error "boom") false ⟨none, none⟩).1 =
      .error (.exchangeFailed "boom") :=
  ⟨(C8_failed_exchange_state 0 false ⟨none, none⟩ "boom").1,
   (C8_failed_exchange_state 0 false ⟨none, none⟩ "boom").2 rfl⟩

/-! ### C10 — re-synthesis of a processed chunk is a no-op -/

/-- C10: a chunk whose `processed` flag is set returns its recorded audio
reference immediately: no rate-limiter slot is taken, no synthesis call is
issued, and neither the chunk nor the effect log changes. -/
theorem C10_processed_noop (synth : Nat → Nat → Bool) (max_retries : Nat)
    (chunk : TextChunk) (st : EffState) (hp : chunk.processed = true) :
    synthesize_chunk synth max_retries chunk st = (.ok chunk.audio_file, chunk, st) := by
  unfold synthesize_chunk
  rw [hp]
  simp

theorem C10_processed_noop_witness :
    (⟨"ab".data, 0, 2, true, some 0⟩ : TextChunk).processed = true ∧
    synthesize_chunk (fun _ _ => false) 3 ⟨"ab".data, 0, 2, true, some 0⟩ ⟨0, []⟩ =
      (.ok (some 0), ⟨"ab".data, 0, 2, true, some 0⟩, ⟨0, []⟩) :=
  ⟨rfl, C10_processed_noop (fun _ _ => false) 3 ⟨"ab".data, 0, 2, true, some 0⟩ ⟨0, []⟩ rfl⟩

/-! ### C5 — retry bound -/

theorem synthLoop_all_fail (synth : Nat → Nat → Bool) (max_retries idx : Nat)
    (hfail : ∀ a, synth idx a = false) :
    ∀ remaining attempt st, remaining + attempt = max_retries → 1 ≤ remaining →
    synthLoop synth max_retries idx remaining attempt st =
      (.error (.failedAfterRetries idx (max_retries - 1)),
       ⟨st.grants + remaining,
        st.calls ++ (List.range' attempt remaining).map (fun a => (idx, a))⟩) := by
  intro remaining
  induction remaining with
  | zero => intro attempt st _ h1; omega
  | succ n ih =>
    intro attempt st hsum _
    unfold synthLoop
    rw [hfail attempt]
    cases n with
    | zero =>
      have hatt : attempt = max_retries - 1 := by omega
      have : ¬ attempt < max_retries - 1 := by omega
      simp only [Bool.false_eq_true, if_false, this, if_false]
      rw [hatt]
      simp [List.range'_one]
    | succ m =>
      have hlt : attempt < max_retries - 1 := by omega
      simp only [Bool.false_eq_true, if_false, hlt, if_true]
      rw [ih (attempt + 1) _ (by omega) (by omega)]
      simp only [List.range'_succ, List.map_cons, Prod.mk.injEq, EffState.mk.injEq,
        List.append_assoc, List.singleton_append, List.cons_append, true_and,
        and_true]
      exact ⟨by omega, by simp⟩

/-- C5: a fresh chunk (non-blank after cleanup) whose synthesis always
fails is attempted exactly `max_retries` times — the synthesis-call log
grows by the attempts `0 .. max_retries - 1` for this chunk and no more —
after which `synthesize_chunk` raises the permanent failure carrying the
last attempt's error, leaving the chunk unmarked as processed. The bound
is per-chunk: it depends only on this chunk's index and oracle outcomes. -/
theorem C5_retry_bound (synth : Nat → Nat → Bool) (max_retries : Nat)
    (chunk : TextChunk) (st : EffState)
    (hp : chunk.processed = false)
    (hclean : pstrip (clean_text_for_synthesis chunk.text) ≠ [])
    (hfail : ∀ a, synth chunk.index a = false) (hmr : 1 ≤ max_retries) :
    synthesize_chunk synth max_retries chunk st =
      (.error (.failedAfterRetries chunk.index (max_retries - 1)), chunk,
       ⟨st.grants + max_retries,
        st.calls ++ (List.range max_retries).map (fun a => (chunk.index, a))⟩) := by
  unfold synthesize_chunk
  rw [hp]
  simp only [Bool.false_eq_true, if_false, hclean, if_neg hclean]
  rw [synthLoop_all_fail synth max_retries chunk.index hfail max_retries 0 st
    (by omega) hmr]
  rw [List.range_eq_range']

theorem C5_retry_bound_witness :
    synthesize_chunk (fun _ _ => false) 3 (mkTextChunk "ab".data 7) ⟨0, []⟩ =
      (.error (.failedAfterRetries 7 2), mkTextChunk "ab".data 7,
       ⟨3, [(7, 0), (7, 1), (7, 2)]⟩) := by
  have hclean : pstrip (clean_text_for_synthesis (mkTextChunk "ab".data 7).text) ≠ [] := by
    simp [mkTextChunk, clean_text_for_synthesis, collapseWsRuns, collapseDots,
      collapseBangs, collapseQuestions, isAllowed, isPySpace, pstrip, lstrip, rstrip]
  have h := C5_retry_bound (fun _ _ => false) 3 (mkTextChunk "ab".data 7) ⟨0, []⟩
    rfl hclean (fun _ => rfl) (by norm_num)
  rw [h]
  norm_num [mkTextChunk, List.range_succ]

/-! ### C1, C9 — pipeline output shape and whole-run failure -/

theorem synthLoop_ok_some_eq_idx (synth : Nat → Nat → Bool) (mr idx : Nat) :
    ∀ rem att st a st',
      synthLoop synth mr idx rem att st = (.ok (some a), st') → a = idx := by
  intro rem
  induction rem with
  | zero =>
    intro att st a st' h
    unfold synthLoop at h
    cases h
  | succ n ih =>
    intro att st a st' h
    unfold synthLoop at h
    by_cases hs : synth idx att
    · rw [if_pos hs] at h
      cases h
      rfl
    · rw [if_neg hs] at h
      by_cases hlt : att < mr - 1
      · rw [if_pos hlt] at h
        exact ih _ _ _ _ h
      · rw [if_neg hlt] at h
        cases h

theorem synthLoop_not_ok_none (synth : Nat → Nat → Bool) (mr idx : Nat) :
    ∀ rem att st, rem + att = mr → 1 ≤ rem →
      ∀ st', synthLoop synth mr idx rem att st ≠ (.ok none, st') := by
  intro rem
  induction rem with
  | zero => intro att st h h1; omega
  | succ n ih =>
    intro att st hsum _ st' h
    unfold synthLoop at h
    by_cases hs : synth idx att
    · rw [if_pos hs] at h
      cases h
    · rw [if_neg hs] at h
      by_cases hlt : att < mr - 1
      · rw [if_pos hlt] at h
        exact ih (att + 1) _ (by omega) (by omega) st' h
      · rw [if_neg hlt] at h
        cases h

theorem synthesize_chunk_ok_some_eq_idx (synth : Nat → Nat → Bool) (mr : Nat)
    (chunk : TextChunk) (st : EffState) (hp : chunk.processed = false) :
    ∀ a c' st', synthesize_chunk synth mr chunk st = (.ok (some a), c', st') →
      a = chunk.index := by
  intro a c' st' h
  unfold synthesize_chunk at h
  rw [hp] at h
  simp only [Bool.false_eq_true, if_false] at h
  by_cases hc : pstrip (clean_text_for_synthesis chunk.text) = []
  · rw [if_pos hc] at h
    cases h
  · rw [if_neg hc] at h
    rcases hl : synthLoop synth mr chunk.index mr 0 st with ⟨r, stl⟩
    rw [hl] at h
    match r, h with
    | .ok (some b), h =>
      have := synthLoop_ok_some_eq_idx synth mr chunk.index mr 0 st b stl hl
      cases h
      exact this
    | .ok none, h => cases h
    | .error e, h => cases h

theorem synthesize_chunk_fresh_ok_some (synth : Nat → Nat → Bool) (mr : Nat)
    (chunk : TextChunk) (st : EffState) (hp : chunk.processed = false)
    (hmr : 1 ≤ mr) :
    ∀ v c' st', synthesize_chunk synth mr chunk st = (.ok v, c', st') →
      ∃ a, v = some a := by
  intro v c' st' h
  unfold synthesize_chunk at h
  rw [hp] at h
  simp only [Bool.false_eq_true, if_false] at h
  by_cases hc : pstrip (clean_text_for_synthesis chunk.text) = []
  · rw [if_pos hc] at h
    cases h
  · rw [if_neg hc] at h
    rcases hl : synthLoop synth mr chunk.index mr 0 st with ⟨r, stl⟩
    rw [hl] at h
    match r, h with
    | .ok (some b), h => exact ⟨b, by cases h; rfl⟩
    | .ok none, h =>
      exact absurd hl (synthLoop_not_ok_none synth mr chunk.index mr 0 st
        (by omega) hmr stl)
    | .error e, h => cases h

theorem synthChunksGo_length (synth : Nat → Nat → Bool) (mr : Nat) :
    ∀ chunks st, (synthChunksGo synth mr chunks st).1.length = chunks.length := by
  intro chunks
  induction chunks with
  | nil => intro st; rfl
  | cons c cs ih =>
    intro st
    unfold synthChunksGo
    simp only [List.length_cons]
    rw [ih]

theorem synthChunksGo_cons (synth : Nat → Nat → Bool) (mr : Nat)
    (c : TextChunk) (cs : List TextChunk) (st : EffState) :
    synthChunksGo synth mr (c :: cs) st =
      ((match (synthesize_chunk synth mr c st).1 with
          | .ok v => v | .error _ => none) ::
         (synthChunksGo synth mr cs (synthesize_chunk synth mr c st).2.2).1,
       (synthesize_chunk synth mr c st).2.1 ::
         (synthChunksGo synth mr cs (synthesize_chunk synth mr c st).2.2).2.1,
       (synthChunksGo synth mr cs (synthesize_chunk synth mr c st).2.2).2.2.1,
       (match (synthesize_chunk synth mr c st).1 with
          | .ok _ => 1 | .error _ => 0) +
         (synthChunksGo synth mr cs (synthesize_chunk synth mr c st).2.2).2.2.2) :=
  rfl

theorem synthChunksGo_entry (synth : Nat → Nat → Bool) (mr : Nat) :
    ∀ chunks st, (∀ c ∈ chunks, c.processed = false) →
    ∀ (i : Nat) (a : Nat), (synthChunksGo synth mr chunks st).1[i]? = some (some a) →
      ∃ c : TextChunk, chunks[i]? = some c ∧ a = c.index := by
  intro chunks
  induction chunks with
  | nil => intro st _ i a h; simp [synthChunksGo] at h
  | cons c cs ih =>
    intro st hfresh i a h
    rw [synthChunksGo_cons] at h
    cases i with
    | zero =>
      simp only [List.getElem?_cons_zero, Option.some.injEq] at h
      refine ⟨c, by simp, ?_⟩
      rcases hr : synthesize_chunk synth mr c st with ⟨r, c', st'⟩
      rw [hr] at h
      match r, h with
      | .ok v, h =>
        simp only at h
        subst h
        exact synthesize_chunk_ok_some_eq_idx synth mr c st
          (hfresh c (by simp)) a c' st' hr
      | .error e, h => simp at h
    | succ j =>
      simp only [List.getElem?_cons_succ] at h ⊢
      exact ih _ (fun x hx => hfresh x (by simp [hx])) j a h

theorem synthesize_chunks_ok_eq (synth : Nat → Nat → Bool) (mr : Nat)
    (chunks : List TextChunk) (st : EffState) :
    ∀ l, (synthesize_chunks synth mr chunks st).1 = .ok l →
      l = (synthChunksGo synth mr chunks st).1.filterMap id := by
  intro l h
  unfold synthesize_chunks at h
  by_cases hne : chunks = []
  · rw [if_pos hne] at h
    cases h
  · rw [if_neg hne] at h
    by_cases hv : (synthChunksGo synth mr chunks st).1.filterMap id = []
    · rw [if_pos hv] at h
      cases h
    · rw [if_neg hv] at h
      cases h
      rfl

/-- C1 (amended): the internal per-chunk result sequence built by the
pipeline has exactly one slot per input chunk, in input order — slot `i`
is the artifact of chunk `i` or the `None` failure marker — but the value
`synthesize_chunks` returns is that sequence with the `None` markers
filtered out, so the returned list's length is the number of successful
chunks, not the input length. -/
theorem C1_order_preservation (synth : Nat → Nat → Bool) (mr : Nat)
    (chunks : List TextChunk) (st : EffState) (hne : chunks ≠ [])
    (hfresh : ∀ c ∈ chunks, c.processed = false) :
    (synthChunksGo synth mr chunks st).1.length = chunks.length ∧
    (∀ (i : Nat) (a : Nat), (synthChunksGo synth mr chunks st).1[i]? = some (some a) →
      ∃ c : TextChunk, chunks[i]? = some c ∧ a = c.index) ∧
    (∀ l, (synthesize_chunks synth mr chunks st).1 = .ok l →
      l = (synthChunksGo synth mr chunks st).1.filterMap id) := by
  refine ⟨synthChunksGo_length synth mr chunks st,
    synthChunksGo_entry synth mr chunks st hfresh,
    synthesize_chunks_ok_eq synth mr chunks st⟩

theorem C1_order_preservation_witness :
    ((mkTextChunk "ab".data 0 : TextChunk) :: [] ≠ [] ∧
      (synthChunksGo (fun _ _ => true) 3 [mkTextChunk "ab".data 0] ⟨0, []⟩).1.length =
        [mkTextChunk "ab".data 0].length) :=
  ⟨by simp,
   (C1_order_preservation (fun _ _ => true) 3 [mkTextChunk "ab".data 0] ⟨0, []⟩
     (by simp) (fun c hc => by
        simp only [List.mem_singleton] at hc
        rw [hc]
        rfl)).1⟩

/-- The oracle of the C1 counterexample: chunk 0 always fails, chunk 1
always succeeds. -/
def c1Synth : Nat → Nat → Bool := fun i _ => i == 1

/-- C1 (counterexample): on the two fresh chunks `["ab", "cd"]` with the
oracle failing chunk 0 and succeeding on chunk 1, the pipeline returns
`.ok [1]` — a sequence of length 1 for an input of length 2, so the output
sequence length does not equal the input chunk count. -/
theorem C1_length_counterexample :
    (synthesize_chunks c1Synth 3
      [mkTextChunk "ab".data 0, mkTextChunk "cd".data 1] ⟨0, []⟩).1 = .ok [1] ∧
    ([1] : List Nat).length ≠
      [mkTextChunk "ab".data 0, mkTextChunk "cd".data 1].length := by
  constructor
  · simp [synthesize_chunks, synthChunksGo, synthesize_chunk, synthLoop, c1Synth,
      mkTextChunk, clean_text_for_synthesis, collapseWsRuns, collapseDots,
      collapseBangs, collapseQuestions, isAllowed, isPySpace, pstrip, lstrip, rstrip]
  · simp

theorem synthChunksGo_filterMap_nil_iff_succ_zero (synth : Nat → Nat → Bool)
    (mr : Nat) (hmr : 1 ≤ mr) :
    ∀ chunks st, (∀ c ∈ chunks, c.processed = false) →
      ((synthChunksGo synth mr chunks st).1.filterMap id = [] ↔
        (synthChunksGo synth mr chunks st).2.2.2 = 0) := by
  intro chunks
  induction chunks with
  | nil => intro st _; simp [synthChunksGo]
  | cons c cs ih =>
    intro st hfresh
    unfold synthChunksGo
    rcases hr : synthesize_chunk synth mr c st with ⟨r, c', st'⟩
    simp only
    have htail := ih st' (fun x hx => hfresh x (by simp [hx]))
    match r, hr with
    | .ok v, hr =>
      obtain ⟨a, rfl⟩ := synthesize_chunk_fresh_ok_some synth mr c st
        (hfresh c (by simp)) hmr v c' st' hr
      simp only [List.filterMap_cons, id]
      simp [htail]
    | .error e, hr =>
      simp only [List.filterMap_cons, id]
      simp [htail]

/-- C9: on a non-empty list of fresh chunks, the run raises the
whole-run `allChunksFailed` error exactly when the number of successfully
synthesized chunks is zero; as soon as at least one chunk succeeds, the
run completes normally with an `.ok` result even though other chunks
failed permanently. -/
theorem C9_whole_run_failure (synth : Nat → Nat → Bool) (mr : Nat)
    (chunks : List TextChunk) (st : EffState) (hne : chunks ≠ [])
    (hfresh : ∀ c ∈ chunks, c.processed = false) (hmr : 1 ≤ mr) :
    ((synthesize_chunks synth mr chunks st).1 = .error .allChunksFailed ↔
      (synthChunksGo synth mr chunks st).2.2.2 = 0) ∧
    (1 ≤ (synthChunksGo synth mr chunks st).2.2.2 →
      ∃ l, (synthesize_chunks synth mr chunks st).1 = .ok l) := by
  have hbridge := synthChunksGo_filterMap_nil_iff_succ_zero synth mr hmr chunks st hfresh
  unfold synthesize_chunks
  rw [if_neg hne]
  constructor
  · by_cases hv : (synthChunksGo synth mr chunks st).1.filterMap id = []
    · rw [if_pos hv]
      simp only [true_iff]
      exact hbridge.mp hv
    · rw [if_neg hv]
      constructor
      · intro hcontra
        cases hcontra
      · intro h0
        exact absurd (hbridge.mpr h0) hv
  · intro h1
    by_cases hv : (synthChunksGo synth mr chunks st).1.filterMap id = []
    · exfalso
      have := hbridge.mp hv
      omega
    · rw [if_neg hv]
      exact ⟨_, rfl⟩

theorem C9_whole_run_failure_witness :
    ¬ (synthesize_chunks (fun _ _ => true) 3 [mkTextChunk "ab".data 0] ⟨0, []⟩).1 =
        .error .allChunksFailed ∧
    ∃ l, (synthesize_chunks (fun _ _ => true) 3 [mkTextChunk "ab".data 0] ⟨0, []⟩).1 =
        .ok l := by
  have hone : 1 ≤ (synthChunksGo (fun _ _ => true) 3 [mkTextChunk "ab".data 0] ⟨0, []⟩).2.2.2 := by
    simp [synthChunksGo, synthesize_chunk, synthLoop, mkTextChunk,
      clean_text_for_synthesis, collapseWsRuns, collapseDots, collapseBangs,
      collapseQuestions, isAllowed, isPySpace, pstrip, lstrip, rstrip]
  have h := C9_whole_run_failure (fun _ _ => true) 3 [mkTextChunk "ab".data 0] ⟨0, []⟩
    (by simp) (fun c hc => by
      simp only [List.mem_singleton] at hc
      rw [hc]
      rfl) (by norm_num)
  refine ⟨fun hcontra => ?_, h.2 hone⟩
  have := h.1.mp hcontra
  omega

/-! ### C3 — chunk length bound -/

theorem hardCut_length_le (m : Nat) (w : Str) :
    ∀ c ∈ hardCut m w, c.length ≤ m := by
  refine hardCut.induct m (fun w => ∀ c ∈ hardCut m w, c.length ≤ m) ?_ ?_ w
  · intro w h
    rw [hardCut, if_pos h]
    simp
  · intro w h ih
    rw [hardCut, if_neg h]
    intro c hc
    rcases List.mem_cons.1 hc with rfl | hmem
    · exact List.length_take_le m w
    · exact ih c hmem

theorem wordsLoop_bound (m : Nat) :
    ∀ ws chunks current, (∀ c ∈ chunks, c.length ≤ m) → current.length ≤ m →
    ∀ c ∈ wordsLoop m ws chunks current, c.length ≤ m := by
  intro ws
  induction ws with
  | nil =>
    intro chunks current hch hcur c hc
    unfold wordsLoop at hc
    by_cases h : current = []
    · rw [if_pos h] at hc
      exact hch c hc
    · rw [if_neg h] at hc
      rcases List.mem_append.1 hc with hmem | hmem
      · exact hch c hmem
      · rw [List.mem_singleton.1 hmem]
        exact hcur
  | cons w ws ih =>
    intro chunks current hch hcur c hc
    unfold wordsLoop at hc
    by_cases hskip : pstrip w = []
    · rw [if_pos hskip] at hc
      exact ih chunks current hch hcur c hc
    · rw [if_neg hskip] at hc
      set potential := current ++ (if current = [] then [] else [' ']) ++ w with hpot
      by_cases hfit : potential.length ≤ m
      · rw [if_pos hfit] at hc
        exact ih chunks potential hch hfit c hc
      · rw [if_neg hfit] at hc
        have hch1 : ∀ d ∈ (if current = [] then chunks else chunks ++ [current]),
            d.length ≤ m := by
          intro d hd
          by_cases hcu : current = []
          · rw [if_pos hcu] at hd
            exact hch d hd
          · rw [if_neg hcu] at hd
            rcases List.mem_append.1 hd with hmem | hmem
            · exact hch d hmem
            · rw [List.mem_singleton.1 hmem]
              exact hcur
        by_cases hbig : m < w.length
        · rw [if_pos hbig] at hc
          refine ih _ [] ?_ (by simp) c hc
          intro d hd
          rcases List.mem_append.1 hd with hmem | hmem
          · exact hch1 d hmem
          · exact hardCut_length_le m w d hmem
        · rw [if_neg hbig] at hc
          exact ih _ w hch1 (le_of_not_lt hbig) c hc

theorem split_by_words_bound (m : Nat) (text : Str) :
    ∀ c ∈ split_by_words m text, c.length ≤ m :=
  wordsLoop_bound m (wordSplit text) [] [] (by simp) (by simp)

theorem getLastD_eq_or_mem {α : Type} (l : List α) (d : α) :
    l.getLastD d = d ∨ l.getLastD d ∈ l := by
  induction l generalizing d with
  | nil => exact Or.inl rfl
  | cons a as ih =>
    rw [List.getLastD_cons]
    rcases ih a with h | h
    · rw [h]
      exact Or.inr (List.mem_cons_self a as)
    · exact Or.inr (List.mem_cons_of_mem a h)

theorem sentLoop_bound (m : Nat) :
    ∀ ps chunks current, (∀ c ∈ chunks, c.length ≤ m) → current.length ≤ m →
    ∀ c ∈ sentLoop m ps chunks current, c.length ≤ m := by
  intro ps
  induction ps with
  | nil =>
    intro chunks current hch hcur c hc
    unfold sentLoop at hc
    by_cases h : current = []
    · rw [if_pos h] at hc
      exact hch c hc
    · rw [if_neg h] at hc
      rcases List.mem_append.1 hc with hmem | hmem
      · exact hch c hmem
      · rw [List.mem_singleton.1 hmem]
        exact hcur
  | cons p ps ih =>
    intro chunks current hch hcur c hc
    unfold sentLoop at hc
    set sentence := pstrip p with hsent
    by_cases hskip : sentence = []
    · rw [if_pos hskip] at hc
      exact ih chunks current hch hcur c hc
    · rw [if_neg hskip] at hc
      set potential := current ++ (if current = [] then [] else [' ']) ++ sentence with hpot
      by_cases hfit : potential.length ≤ m
      · rw [if_pos hfit] at hc
        exact ih chunks potential hch hfit c hc
      · rw [if_neg hfit] at hc
        have hch1 : ∀ d ∈ (if current = [] then chunks else chunks ++ [current]),
            d.length ≤ m := by
          intro d hd
          by_cases hcu : current = []
          · rw [if_pos hcu] at hd
            exact hch d hd
          · rw [if_neg hcu] at hd
            rcases List.mem_append.1 hd with hmem | hmem
            · exact hch d hmem
            · rw [List.mem_singleton.1 hmem]
              exact hcur
        by_cases hbig : m < sentence.length
        · rw [if_pos hbig] at hc
          refine ih _ _ ?_ ?_ c hc
          · intro d hd
            rcases List.mem_append.1 hd with hmem | hmem
            · exact hch1 d hmem
            · exact split_by_words_bound m sentence d
                ((List.dropLast_sublist _).subset hmem)
          · rcases getLastD_eq_or_mem (split_by_words m sentence) [] with h | h
            · rw [h]
              simp
            · exact split_by_words_bound m sentence _ h
        · rw [if_neg hbig] at hc
          exact ih _ sentence hch1 (le_of_not_lt hbig) c hc

theorem split_by_sentences_bound (m : Nat) (text : Str) :
    ∀ c ∈ split_by_sentences m text, c.length ≤ m :=
  sentLoop_bound m _ [] [] (by simp) (by simp)

theorem paraLoop_bound (m : Nat) :
    ∀ ps chunks current, (∀ c ∈ chunks, c.length ≤ m) → current.length ≤ m →
    ∀ c ∈ paraLoop m ps chunks current, c.length ≤ m := by
  intro ps
  induction ps with
  | nil =>
    intro chunks current hch hcur c hc
    unfold paraLoop at hc
    by_cases h : current = []
    · rw [if_pos h] at hc
      exact hch c hc
    · rw [if_neg h] at hc
      rcases List.mem_append.1 hc with hmem | hmem
      · exact hch c hmem
      · rw [List.mem_singleton.1 hmem]
        exact hcur
  | cons p ps ih =>
    intro chunks current hch hcur c hc
    unfold paraLoop at hc
    set paragraph := pstrip p with hpar
    by_cases hskip : paragraph = []
    · rw [if_pos hskip] at hc
      exact ih chunks current hch hcur c hc
    · rw [if_neg hskip] at hc
      set potential := current ++ (if current = [] then [] else ['\n', '\n']) ++ paragraph
        with hpot
      by_cases hfit : potential.length ≤ m
      · rw [if_pos hfit] at hc
        exact ih chunks potential hch hfit c hc
      · rw [if_neg hfit] at hc
        have hch1 : ∀ d ∈ (if current = [] then chunks else chunks ++ [current]),
            d.length ≤ m := by
          intro d hd
          by_cases hcu : current = []
          · rw [if_pos hcu] at hd
            exact hch d hd
          · rw [if_neg hcu] at hd
            rcases List.mem_append.1 hd with hmem | hmem
            · exact hch d hmem
            · rw [List.mem_singleton.1 hmem]
              exact hcur
        by_cases hbig : m < paragraph.length
        · rw [if_pos hbig] at hc
          refine ih _ _ ?_ ?_ c hc
          · intro d hd
            rcases List.mem_append.1 hd with hmem | hmem
            · exact hch1 d hmem
            · exact split_by_sentences_bound m paragraph d
                ((List.dropLast_sublist _).subset hmem)
          · rcases getLastD_eq_or_mem (split_by_sentences m paragraph) [] with h | h
            · rw [h]
              simp
            · exact split_by_sentences_bound m paragraph _ h
        · rw [if_neg hbig] at hc
          exact ih _ paragraph hch1 (le_of_not_lt hbig) c hc

theorem split_into_chunks_bound (m : Nat) (text : Str) :
    ∀ c ∈ split_into_chunks m text, c.length ≤ m :=
  paraLoop_bound m _ [] [] (by simp) (by simp)

/-- C3 (amended): every chunk returned by `split_text` — whichever
fallback level produced it, the greedy packing levels included — has
length at most `maxSize`; reaching exactly `maxSize` is not exclusive to
the hard cut (see the counterexample). -/
theorem C3_chunk_length_bound (maxSize : Nat) (text : Str)
    (cs : List TextChunk) (hm : 1 ≤ maxSize)
    (h : split_text maxSize text = .ok cs) :
    ∀ c ∈ cs, c.length ≤ maxSize := by
  unfold split_text at h
  by_cases hempty : pstrip text = []
  · rw [if_pos hempty] at h
    cases h
  · rw [if_neg hempty] at h
    by_cases hfit : (preprocess text).length ≤ maxSize
    · rw [if_pos hfit] at h
      cases h
      intro c hc
      rw [List.mem_singleton.1 hc]
      exact le_trans (pstrip_length_le _) hfit
    · rw [if_neg hfit] at h
      cases h
      intro c hc
      rcases List.mem_filterMap.1 hc with ⟨⟨i, frag⟩, hmem, hsome⟩
      by_cases hblank : pstrip frag = []
      · rw [if_pos hblank] at hsome
        cases hsome
      · rw [if_neg hblank] at hsome
        cases hsome
        have hfragmem : frag ∈ split_into_chunks maxSize (preprocess text) := by
          have := List.mem_enum_iff_getElem?.1 hmem
          exact List.getElem?_mem this
        exact le_trans (pstrip_length_le _)
          (split_into_chunks_bound maxSize (preprocess text) frag hfragmem)

theorem C3_chunk_length_bound_witness :
    (1 ≤ 5) ∧ (mkTextChunk "ab".data 0).length ≤ 5 := by
  have hok : split_text 5 "ab".data = .ok [mkTextChunk "ab".data 0] := by
    simp [split_text, preprocess, normNewlines, collapseHoriz, collapseNl,
      splitOnNl, pstrip, lstrip, rstrip, isPySpace, isHoriz, List.intercalate]
  exact ⟨by norm_num,
    C3_chunk_length_bound 5 "ab".data [mkTextChunk "ab".data 0] (by norm_num) hok
      (mkTextChunk "ab".data 0) (by simp)⟩

/-- C3 (counterexample to the exclusivity part): on input `"ab cd x"` with
`maxSize = 5`, the word-packing level produces the chunk `"ab cd"` of
length exactly `maxSize`, although no word of the input reaches `maxSize`
— so the hard cut (which only fires for a word longer than `maxSize`)
cannot have produced it: a chunk of exactly `maxSize` is not exclusive to
the hard-cut fallback. -/
theorem C3_exact_max_not_only_hardcut :
    split_text 5 "ab cd x".data =
      .ok [mkTextChunk "ab cd".data 0, mkTextChunk "x".data 1] ∧
    (mkTextChunk "ab cd".data 0).length = 5 ∧
    (wordSplit (preprocess "ab cd x".data)).all (fun w => decide (w.length < 5)) = true := by
  refine ⟨?_, by simp [mkTextChunk, pstrip, lstrip, rstrip, isPySpace], ?_⟩
  · simp +decide [split_text, preprocess, normNewlines, collapseHoriz, collapseNl,
      splitOnNl, List.intercalate, split_into_chunks, paraLoop, paragraphSplit,
      split_by_sentences, sentLoop, sentenceSplit, buildParts, split_by_words,
      wordsLoop, wordSplit, hardCut, consHead, pstrip, lstrip, rstrip,
      isPySpace, isTerm, isHoriz, mkTextChunk, List.enum, List.enumFrom]
  · simp [preprocess, normNewlines, collapseHoriz, collapseNl, splitOnNl,
      List.intercalate, wordSplit, consHead, pstrip, lstrip, rstrip,
      isPySpace, isHoriz]

/-! ### C2 — chunking coverage (evaluation at the failing input) -/

/-- C2 (evaluation at the failing input): on input `"a. . b"` with
`maxSize = 3`, the sentence splitter sees the pieces `["a", "", "b"]` with
terminator runs `". "` and `". "`; the blank middle piece is skipped and
its terminator run is silently dropped, so the returned chunks are
`["a.", "b"]` — their concatenated non-whitespace content `"a.b"` is not
the non-whitespace content `"a..b"` of the normalized input: a `.` was
lost. -/
theorem C2_coverage_violated_at_input :
    split_text 3 "a. . b".data =
      .ok [mkTextChunk "a.".data 0, mkTextChunk "b".data 1] ∧
    nonWsContent (([mkTextChunk "a.".data 0, mkTextChunk "b".data 1].map
      TextChunk.text).flatten) = "a.b".data ∧
    nonWsContent (preprocess "a. . b".data) = "a..b".data ∧
    ("a.b".data : Str) ≠ "a..b".data := by
  refine ⟨?_, by simp [mkTextChunk, nonWsContent, pstrip, lstrip, rstrip, isPySpace], ?_, by simp⟩
  · simp +decide [split_text, preprocess, normNewlines, collapseHoriz, collapseNl,
      splitOnNl, List.intercalate, split_into_chunks, paraLoop, paragraphSplit,
      split_by_sentences, sentLoop, sentenceSplit, buildParts, split_by_words,
      wordsLoop, wordSplit, hardCut, consHead, pstrip, lstrip, rstrip,
      isPySpace, isTerm, isHoriz, mkTextChunk, List.enum, List.enumFrom]
  · simp [preprocess, normNewlines, collapseHoriz, collapseNl, splitOnNl,
      List.intercalate, nonWsContent, pstrip, lstrip, rstrip, isPySpace, isHoriz]

/-! ### C4 — index contiguity -/

theorem mem_dropWhile_of_not {p : Char → Bool} {l : Str} {x : Char}
    (hx : x ∈ l) (hpx : p x = false) : x ∈ l.dropWhile p := by
  rw [← List.takeWhile_append_dropWhile (p := p) (l := l)] at hx
  rcases List.mem_append.1 hx with h1 | h2
  · have := List.mem_takeWhile_imp h1
    rw [this] at hpx
    cases hpx
  · exact h2

theorem exists_nonspace_mem_pstrip {t : Str} (h : pstrip t ≠ []) :
    ∃ x ∈ pstrip t, isPySpace x = false := by
  obtain ⟨x, hx, hxs⟩ := exists_nonspace_of_pstrip_ne_nil h
  have h1 : x ∈ lstrip t := mem_dropWhile_of_not hx hxs
  have h2 : x ∈ rstrip (lstrip t) := by
    unfold rstrip
    rw [List.mem_reverse]
    exact mem_dropWhile_of_not (by rwa [List.mem_reverse]) hxs
  exact ⟨x, h2, hxs⟩

theorem mem_consHead {cs : Str} {l : List Str} {p : Str} (h : p ∈ consHead cs l) :
    (l = [] ∧ p = cs) ∨ ∃ h0 t, l = h0 :: t ∧ (p = cs ++ h0 ∨ p ∈ t) := by
  cases l with
  | nil =>
    left
    exact ⟨rfl, List.mem_singleton.1 h⟩
  | cons h0 t =>
    right
    refine ⟨h0, t, rfl, ?_⟩
    rcases List.mem_cons.1 h with h1 | h1
    · exact Or.inl h1
    · exact Or.inr h1

theorem wordSplit_no_space (t : Str) :
    ∀ p ∈ wordSplit t, ∀ x ∈ p, isPySpace x = false := by
  refine wordSplit.induct (fun t => ∀ p ∈ wordSplit t, ∀ x ∈ p, isPySpace x = false)
    ?_ ?_ ?_ t
  · intro p hp x hx
    rw [wordSplit] at hp
    rw [List.mem_singleton.1 hp] at hx
    cases hx
  · intro c rest hc ih p hp x hx
    rw [wordSplit, if_pos hc] at hp
    rcases List.mem_cons.1 hp with rfl | hmem
    · cases hx
    · exact ih p hmem x hx
  · intro c rest hc ih p hp x hx
    rw [wordSplit, if_neg hc] at hp
    rcases mem_consHead hp with ⟨hnil, rfl⟩ | ⟨h0, tl, heq, hor⟩
    · rcases List.mem_singleton.1 hx with rfl
      simpa using hc
    · rcases hor with rfl | hmem
      · rcases List.mem_append.1 hx with h1 | h1
        · rcases List.mem_singleton.1 h1 with rfl
          simpa using hc
        · exact ih h0 (by rw [heq]; exact List.mem_cons_self _ _) x h1
      · exact ih p (by rw [heq]; exact List.mem_cons_of_mem _ hmem) x hx

theorem hardCut_ne_nil_subset (m : Nat) (hm : 1 ≤ m) (w : Str) :
    ∀ c ∈ hardCut m w, c ≠ [] ∧ ∀ x ∈ c, x ∈ w := by
  refine hardCut.induct m (fun w => ∀ c ∈ hardCut m w, c ≠ [] ∧ ∀ x ∈ c, x ∈ w)
    ?_ ?_ w
  · intro w h c hc
    rw [hardCut, if_pos h] at hc
    cases hc
  · intro w h ih c hc
    rw [hardCut, if_neg h] at hc
    push_neg at h
    rcases List.mem_cons.1 hc with rfl | hmem
    · refine ⟨?_, fun x hx => List.take_subset m w hx⟩
      rw [Ne, List.take_eq_nil_iff]
      push_neg
      exact ⟨by omega, h.2⟩
    · obtain ⟨hne, hsub⟩ := ih c hmem
      exact ⟨hne, fun x hx => List.drop_subset m w (hsub x hx)⟩

theorem wordsLoop_nonws (m : Nat) (hm : 1 ≤ m) :
    ∀ ws chunks current,
      (∀ w ∈ ws, ∀ x ∈ w, isPySpace x = false) →
      (∀ c ∈ chunks, pstrip c ≠ []) →
      (current = [] ∨ pstrip current ≠ []) →
      ∀ c ∈ wordsLoop m ws chunks current, pstrip c ≠ [] := by
  intro ws
  induction ws with
  | nil =>
    intro chunks current hws hch hcur c hc
    unfold wordsLoop at hc
    by_cases h : current = []
    · rw [if_pos h] at hc
      exact hch c hc
    · rw [if_neg h] at hc
      rcases List.mem_append.1 hc with hmem | hmem
      · exact hch c hmem
      · rw [List.mem_singleton.1 hmem]
        exact hcur.resolve_left h
  | cons w ws ih =>
    intro chunks current hws hch hcur c hc
    unfold wordsLoop at hc
    have hwchars : ∀ x ∈ w, isPySpace x = false := hws w (List.mem_cons_self _ _)
    have hwstail : ∀ v ∈ ws, ∀ x ∈ v, isPySpace x = false :=
      fun v hv => hws v (List.mem_cons_of_mem _ hv)
    by_cases hskip : pstrip w = []
    · rw [if_pos hskip] at hc
      exact ih chunks current hwstail hch hcur c hc
    · rw [if_neg hskip] at hc
      obtain ⟨x, hxw, hxs⟩ := exists_nonspace_of_pstrip_ne_nil hskip
      set potential := current ++ (if current = [] then [] else [' ']) ++ w with hpot
      have hpotok : pstrip potential ≠ [] :=
        pstrip_ne_nil_of_mem (by simp [hpot, hxw]) hxs
      by_cases hfit : potential.length ≤ m
      · rw [if_pos hfit] at hc
        exact ih chunks potential hwstail hch (Or.inr hpotok) c hc
      · rw [if_neg hfit] at hc
        have hch1 : ∀ d ∈ (if current = [] then chunks else chunks ++ [current]),
            pstrip d ≠ [] := by
          intro d hd
          by_cases hcu : current = []
          · rw [if_pos hcu] at hd
            exact hch d hd
          · rw [if_neg hcu] at hd
            rcases List.mem_append.1 hd with hmem | hmem
            · exact hch d hmem
            · rw [List.mem_singleton.1 hmem]
              exact hcur.resolve_left hcu
        by_cases hbig : m < w.length
        · rw [if_pos hbig] at hc
          refine ih _ [] hwstail ?_ (Or.inl rfl) c hc
          intro d hd
          rcases List.mem_append.1 hd with hmem | hmem
          · exact hch1 d hmem
          · obtain ⟨hne, hsub⟩ := hardCut_ne_nil_subset m hm w d hmem
            obtain ⟨y, hy⟩ := List.exists_mem_of_ne_nil d hne
            exact pstrip_ne_nil_of_mem hy (hwchars y (hsub y hy))
        · rw [if_neg hbig] at hc
          exact ih _ w hwstail hch1 (Or.inr hskip) c hc

theorem split_by_words_nonws (m : Nat) (hm : 1 ≤ m) (text : Str) :
    ∀ c ∈ split_by_words m text, pstrip c ≠ [] :=
  wordsLoop_nonws m hm (wordSplit text) [] [] (wordSplit_no_space text)
    (by simp) (Or.inl rfl)

theorem sentLoop_nonws (m : Nat) (hm : 1 ≤ m) :
    ∀ ps chunks current,
      (∀ c ∈ chunks, pstrip c ≠ []) →
      (current = [] ∨ pstrip current ≠ []) →
      ∀ c ∈ sentLoop m ps chunks current, pstrip c ≠ [] := by
  intro ps
  induction ps with
  | nil =>
    intro chunks current hch hcur c hc
    unfold sentLoop at hc
    by_cases h : current = []
    · rw [if_pos h] at hc
      exact hch c hc
    · rw [if_neg h] at hc
      rcases List.mem_append.1 hc with hmem | hmem
      · exact hch c hmem
      · rw [List.mem_singleton.1 hmem]
        exact hcur.resolve_left h
  | cons p ps ih =>
    intro chunks current hch hcur c hc
    unfold sentLoop at hc
    set sentence := pstrip p with hsent
    by_cases hskip : sentence = []
    · rw [if_pos hskip] at hc
      exact ih chunks current hch hcur c hc
    · rw [if_neg hskip] at hc
      obtain ⟨x, hxs, hxns⟩ := exists_nonspace_mem_pstrip (t := p) (by rwa [← hsent])
      rw [← hsent] at hxs
      set potential := current ++ (if current = [] then [] else [' ']) ++ sentence
        with hpot
      have hpotok : pstrip potential ≠ [] :=
        pstrip_ne_nil_of_mem (by simp [hpot, hxs]) hxns
      have hsentok : pstrip sentence ≠ [] := pstrip_ne_nil_of_mem hxs hxns
      by_cases hfit : potential.length ≤ m
      · rw [if_pos hfit] at hc
        exact ih chunks potential hch (Or.inr hpotok) c hc
      · rw [if_neg hfit] at hc
        have hch1 : ∀ d ∈ (if current = [] then chunks else chunks ++ [current]),
            pstrip d ≠ [] := by
          intro d hd
          by_cases hcu : current = []
          · rw [if_pos hcu] at hd
            exact hch d hd
          · rw [if_neg hcu] at hd
            rcases List.mem_append.1 hd with hmem | hmem
            · exact hch d hmem
            · rw [List.mem_singleton.1 hmem]
              exact hcur.resolve_left hcu
        by_cases hbig : m < sentence.length
        · rw [if_pos hbig] at hc
          refine ih _ _ ?_ ?_ c hc
          · intro d hd
            rcases List.mem_append.1 hd with hmem | hmem
            · exact hch1 d hmem
            · exact split_by_words_nonws m hm sentence d
                ((List.dropLast_sublist _).subset hmem)
          · rcases getLastD_eq_or_mem (split_by_words m sentence) [] with h | h
            · rw [h]
              exact Or.inl rfl
            · exact Or.inr (split_by_words_nonws m hm sentence _ h)
        · rw [if_neg hbig] at hc
          exact ih _ sentence hch1 (Or.inr hsentok) c hc

theorem split_by_sentences_nonws (m : Nat) (hm : 1 ≤ m) (text : Str) :
    ∀ c ∈ split_by_sentences m text, pstrip c ≠ [] :=
  sentLoop_nonws m hm _ [] [] (by simp) (Or.inl rfl)

theorem paraLoop_nonws (m : Nat) (hm : 1 ≤ m) :
    ∀ ps chunks current,
      (∀ c ∈ chunks, pstrip c ≠ []) →
      (current = [] ∨ pstrip current ≠ []) →
      ∀ c ∈ paraLoop m ps chunks current, pstrip c ≠ [] := by
  intro ps
  induction ps with
  | nil =>
    intro chunks current hch hcur c hc
    unfold paraLoop at hc
    by_cases h : current = []
    · rw [if_pos h] at hc
      exact hch c hc
    · rw [if_neg h] at hc
      rcases List.mem_append.1 hc with hmem | hmem
      · exact hch c hmem
      · rw [List.mem_singleton.1 hmem]
        exact hcur.resolve_left h
  | cons p ps ih =>
    intro chunks current hch hcur c hc
    unfold paraLoop at hc
    set paragraph := pstrip p with hpar
    by_cases hskip : paragraph = []
    · rw [if_pos hskip] at hc
      exact ih chunks current hch hcur c hc
    · rw [if_neg hskip] at hc
      obtain ⟨x, hxs, hxns⟩ := exists_nonspace_mem_pstrip (t := p) (by rwa [← hpar])
      rw [← hpar] at hxs
      set potential := current ++ (if current = [] then [] else ['\n', '\n']) ++ paragraph
        with hpot
      have hpotok : pstrip potential ≠ [] :=
        pstrip_ne_nil_of_mem (by simp [hpot, hxs]) hxns
      have hparok : pstrip paragraph ≠ [] := pstrip_ne_nil_of_mem hxs hxns
      by_cases hfit : potential.length ≤ m
      · rw [if_pos hfit] at hc
        exact ih chunks potential hch (Or.inr hpotok) c hc
      · rw [if_neg hfit] at hc
        have hch1 : ∀ d ∈ (if current = [] then chunks else chunks ++ [current]),
            pstrip d ≠ [] := by
          intro d hd
          by_cases hcu : current = []
          · rw [if_pos hcu] at hd
            exact hch d hd
          · rw [if_neg hcu] at hd
            rcases List.mem_append.1 hd with hmem | hmem
            · exact hch d hmem
            · rw [List.mem_singleton.1 hmem]
              exact hcur.resolve_left hcu
        by_cases hbig : m < paragraph.length
        · rw [if_pos hbig] at hc
          refine ih _ _ ?_ ?_ c hc
          · intro d hd
            rcases List.mem_append.1 hd with hmem | hmem
            · exact hch1 d hmem
            · exact split_by_sentences_nonws m hm paragraph d
                ((List.dropLast_sublist _).subset hmem)
          · rcases getLastD_eq_or_mem (split_by_sentences m paragraph) [] with h | h
            · rw [h]
              exact Or.inl rfl
            · exact Or.inr (split_by_sentences_nonws m hm paragraph _ h)
        · rw [if_neg hbig] at hc
          exact ih _ paragraph hch1 (Or.inr hparok) c hc

theorem split_into_chunks_nonws (m : Nat) (hm : 1 ≤ m) (text : Str) :
    ∀ c ∈ split_into_chunks m text, pstrip c ≠ [] :=
  paraLoop_nonws m hm _ [] [] (by simp) (Or.inl rfl)

theorem filterMap_eq_map_on {α β : Type} :
    ∀ (l : List α) (f : α → Option β) (g : α → β),
      (∀ a ∈ l, f a = some (g a)) → l.filterMap f = l.map g := by
  intro l
  induction l with
  | nil => intro f g _; rfl
  | cons a as ih =>
    intro f g h
    rw [List.filterMap_cons, h a (List.mem_cons_self _ _), List.map_cons,
      ih f g (fun b hb => h b (List.mem_cons_of_mem _ hb))]

/-- C4: whenever `split_text` returns a chunk list, the chunk indices are
exactly `0 .. n-1` in order, with no gaps and no repeats (`n` the number
of returned chunks): every raw fragment produced by the splitting levels
is non-blank, so the enumeration skips nothing. -/
theorem C4_index_contiguity (maxSize : Nat) (text : Str)
    (cs : List TextChunk) (hm : 1 ≤ maxSize)
    (h : split_text maxSize text = .ok cs) :
    cs.map TextChunk.index = List.range cs.length := by
  unfold split_text at h
  by_cases hempty : pstrip text = []
  · rw [if_pos hempty] at h
    cases h
  · rw [if_neg hempty] at h
    by_cases hfit : (preprocess text).length ≤ maxSize
    · rw [if_pos hfit] at h
      cases h
      rfl
    · rw [if_neg hfit] at h
      cases h
      have hall : ∀ p ∈ (split_into_chunks maxSize (preprocess text)).enum,
          (if pstrip p.2 = [] then none
           else some (mkTextChunk p.2 p.1)) = some (mkTextChunk p.2 p.1) := by
        intro p hp
        have hfrag : p.2 ∈ split_into_chunks maxSize (preprocess text) :=
          List.getElem?_mem (List.mem_enum_iff_getElem?.1 hp)
        rw [if_neg (split_into_chunks_nonws maxSize hm (preprocess text) p.2 hfrag)]
      rw [filterMap_eq_map_on _ _ (fun p => mkTextChunk p.2 p.1) hall]
      rw [List.map_map, List.length_map]
      have : (TextChunk.index ∘ fun p : Nat × Str => mkTextChunk p.2 p.1) = Prod.fst := by
        funext p
        rfl
      rw [this, List.enum_map_fst, List.enum_length]

theorem C4_index_contiguity_witness :
    (1 ≤ 5) ∧
    [mkTextChunk "ab".data 0].map TextChunk.index =
      List.range ([mkTextChunk "ab".data 0] : List TextChunk).length := by
  have hok : split_text 5 "ab".data = .ok [mkTextChunk "ab".data 0] := by
    simp [split_text, preprocess, normNewlines, collapseHoriz, collapseNl,
      splitOnNl, pstrip, lstrip, rstrip, isPySpace, isHoriz, List.intercalate]
  exact ⟨by norm_num,
    C4_index_contiguity 5 "ab".data [mkTextChunk "ab".data 0] (by norm_num) hok⟩

end TextToAudio
